import Mathlib

/-!
Verification development for the `splice` package: a shallow embedding of
the transfer engine (zero-copy `Splice` on Linux, the buffered fallback
`spliceBuffer` in both its pool and context variants) and of the sharded
context pool (`bucket` with `Get`, `Free`, the maintenance eviction of
`run`, and `Release`), together with theorems settling the specification
claims about them.

I/O is modelled by explicit traces: a source connection is a function from
the offered buffer length to the result of the single `Read` the code
performs, and a destination connection is a list of write-call results
(bytes accepted, error), consumed one per `Write`/`splice` call by the
drain loops.  Contexts are identified by natural numbers; `Close` (which
closes both handles of a context together) is modelled by recording the
context id in a `destroyed` list.
-/

/-- Errors surfaced by the embedded code: `eof` models `EOF = io.EOF`,
`eagain` models `syscall.EAGAIN`, `notHandled` models `ErrNotHandled`, and
`other n` models any other I/O error (for instance an errno `n`). -/
inductive IOError
  | eof
  | eagain
  | notHandled
  | other (code : Nat)
deriving DecidableEq, Repr

/-- Result of one write-side call (`dst.Write` or the leg-2 `splice`):
`out` bytes accepted together with the returned error. -/
structure WriteStep where
  out : Nat
  err : Option IOError
deriving DecidableEq, Repr

/-- Result of the single `src.Read(buf)` call performed by the fallback:
`retain` bytes read, the returned error, and the bytes placed into the
front of the buffer. -/
structure ReadResult where
  retain : Nat
  err : Option IOError
  data : List Nat
deriving DecidableEq, Repr

/-- The `maxSpliceSize` constant of `splice.go` (64 << 10), used by the
buffered fallback to size its pooled buffer. -/
def maxSpliceSize : Nat := 64 * 1024

/-- The `maxSpliceSize` constant of `splice_linux.go` (4 << 20), the cap on
one zero-copy chunk. -/
def maxSpliceSizeLinux : Nat := 4 * 1024 * 1024

/-- The `maxIdleContexts` constant (256): cap on a bucket's idle queue. -/
def maxIdleContexts : Nat := 256

/-- Write loop of the pool-variant `spliceBuffer` (the one with signature
`spliceBuffer(dst, src net.Conn, len int64)`).  Arguments mirror the Go
locals: `pos`, `n`, `remain`; the trace list supplies one `dst.Write`
result per iteration.  Returns `(n, err, delivered)` where `delivered` is
the concatenation of the buffer slices the destination accepted, or `none`
when the trace is exhausted with bytes still remaining (the loop would
keep calling `Write`).  A write moving zero bytes with an error other than
`EAGAIN` exits with `return n, EOF`. -/
def writeLoopPool (buf : List Nat) :
    Nat → Nat → Nat → List WriteStep → Option (Nat × Option IOError × List Nat)
  | _, n, 0, _ => some (n, none, [])
  | _, _, _ + 1, [] => none
  | pos, n, remain + 1, w :: ws =>
    if 0 < w.out then
      match writeLoopPool buf (pos + w.out) (n + w.out) (remain + 1 - w.out) ws with
      | some (nf, e, d) => some (nf, e, ((buf.drop pos).take w.out) ++ d)
      | none => none
    else if w.err = some IOError.eagain then
      writeLoopPool buf pos n (remain + 1) ws
    else
      some (n, some IOError.eof, [])

/-- Write loop of the context-variant `spliceBuffer` (signature
`spliceBuffer(dst, src net.Conn, ctx *Context, len int64)`), identical to
`writeLoopPool` except that a fatal write exits with `return n, err`,
propagating the failing write's own error (and it sleeps 10µs before
retrying on `EAGAIN`, which has no observable effect here). -/
def writeLoopCtx (buf : List Nat) :
    Nat → Nat → Nat → List WriteStep → Option (Nat × Option IOError × List Nat)
  | _, n, 0, _ => some (n, none, [])
  | _, _, _ + 1, [] => none
  | pos, n, remain + 1, w :: ws =>
    if 0 < w.out then
      match writeLoopCtx buf (pos + w.out) (n + w.out) (remain + 1 - w.out) ws with
      | some (nf, e, d) => some (nf, e, ((buf.drop pos).take w.out) ++ d)
      | none => none
    else if w.err = some IOError.eagain then
      writeLoopCtx buf pos n (remain + 1) ws
    else
      some (n, w.err, [])

/-- The pool-variant `spliceBuffer(dst, src net.Conn, len int64)`: sizes a
pooled buffer to `maxSpliceSize`, enlarged to `int(len)` when that is
larger; performs one `src.Read`; a read error returns `(0, err)`; a
zero-byte read returns `(0, EOF)`; otherwise it runs the write loop over
the read prefix of the buffer. -/
def spliceBufferPool (read : Nat → ReadResult) (ws : List WriteStep) (len : Int) :
    Option (Nat × Option IOError × List Nat) :=
  let bufferSize := if maxSpliceSize < len.toNat then len.toNat else maxSpliceSize
  let r := read bufferSize
  match r.err with
  | some e => some (0, some e, [])
  | none =>
    if r.retain = 0 then some (0, some IOError.eof, [])
    else writeLoopPool (r.data.take r.retain) 0 0 r.retain ws

/-- The context-variant `spliceBuffer(dst, src net.Conn, ctx *Context,
len int64)`: same buffer sizing and single read, but with no special case
for a zero-byte read (the loop simply does not run) and with the
error-propagating write loop. -/
def spliceBufferCtx (read : Nat → ReadResult) (ws : List WriteStep) (len : Int) :
    Option (Nat × Option IOError × List Nat) :=
  let bufferSize := if maxSpliceSize < len.toNat then len.toNat else maxSpliceSize
  let r := read bufferSize
  match r.err with
  | some e => some (0, some e, [])
  | none => writeLoopCtx (r.data.take r.retain) 0 0 r.retain ws

/-- Leg 2 of the Linux `Splice`: drain the `retain` bytes sitting in the
pipe into the destination, one `splice` call per trace entry; a call
moving zero bytes with an error other than `EAGAIN` exits with
`return n, EOF`. -/
def spliceDrain : Nat → Nat → List WriteStep → Option (Nat × Option IOError)
  | n, 0, _ => some (n, none)
  | _, _ + 1, [] => none
  | n, remain + 1, w :: ws =>
    if 0 < w.out then spliceDrain (n + w.out) (remain + 1 - w.out) ws
    else if w.err = some IOError.eagain then spliceDrain n (remain + 1) ws
    else some (n, some IOError.eof)

/-- Validity of a write trace with respect to the byte count still to be
written: each call accepts at most the bytes offered to it (the kernel and
`io.Writer` guarantee `out ≤ len(p)`), and a call accepting zero bytes
reports an error (the `io.Writer` contract forbids `(0, nil)` for a
non-empty write). -/
def validSteps : Nat → List WriteStep → Bool
  | _, [] => true
  | remain, w :: ws =>
    decide (w.out ≤ remain) && (decide (0 < w.out) || w.err.isSome) &&
      validSteps (remain - w.out) ws

/-- State of one pool shard (`bucket`): the `pending` map (modelled as the
list of its keys), the idle `queue`, the list of contexts on which `Close`
has been invoked (both handles closed together), and a source of fresh
context ids standing for the addresses `newContext` mints. -/
structure BucketSt where
  pending : List Nat
  queue : List Nat
  destroyed : List Nat
  nextId : Nat
deriving DecidableEq, Repr

/-- The `bucket.Get` method: when the idle queue is non-empty it takes
`queue[0]` and shifts the rest down (`copy(b.queue, b.queue[1:])`);
otherwise it calls `newContext` — whose pipe creation may fail, modelled
by `createOk` — and records the fresh context in `pending`. -/
def bucketGet (createOk : Bool) (b : BucketSt) : Option Nat × BucketSt :=
  match b.queue with
  | c :: rest => (some c, ⟨b.pending, rest, b.destroyed, b.nextId⟩)
  | [] =>
    if createOk then
      (some b.nextId, ⟨b.nextId :: b.pending, [], b.destroyed, b.nextId + 1⟩)
    else (none, b)

/-- The `bucket.Free` method: when the idle queue is below
`maxIdleContexts` and the context is alive, append it to the queue;
otherwise delete it from `pending` and `Close` it. -/
def bucketFree (b : BucketSt) (c : Nat) (alive : Bool) : BucketSt :=
  if b.queue.length < maxIdleContexts ∧ alive = true then
    ⟨b.pending, b.queue ++ [c], b.destroyed, b.nextId⟩
  else
    ⟨b.pending.erase c, b.queue, c :: b.destroyed, b.nextId⟩

/-- One reclamation pass of the `bucket.run` maintenance loop body: copy
out the newer half `b.queue[len(b.queue)/2:]`, truncate the queue by that
amount, delete the copied contexts from `pending`, and `Close` them (all
guarded by `idles > 0`). -/
def bucketEvict (b : BucketSt) : BucketSt :=
  let k := b.queue.length / 2
  let evicted := b.queue.drop k
  if evicted.length = 0 then b
  else
    ⟨evicted.foldl (fun p c => p.erase c) b.pending, b.queue.take k,
      evicted ++ b.destroyed, b.nextId⟩

/-- The `bucket.Release` method: when `pending` is nil or empty, return at
once; otherwise detach `pending`, reset the queue to empty, and `Close`
every detached context. -/
def bucketRelease (b : BucketSt) : BucketSt :=
  if b.pending = [] then b
  else ⟨[], [], b.pending ++ b.destroyed, b.nextId⟩

/-- The Linux `Splice(dst, src net.Conn, len int64)` of `splice_linux.go`.
`dstOk`/`srcOk` are the outcomes of the two `netFd` resolutions (a failure
routes to the pool-variant `spliceBuffer`); `b` is the shard selected by
`assignBucket(dstFd)`; `leg1` maps the requested chunk size (after the
`maxSpliceSize` cap) to the result of the inbound `splice`; `leg2` is the
outbound drain trace; `read`/`fws` are the fallback's I/O in case it is
taken.  Returns the `(n, err)` pair together with the resulting bucket
state — the deferred `b.Free(ctx)` runs on every exit path with the value
`ctx.alive` has at that point (`false` until the drain completes). -/
def SpliceLinux (dstOk srcOk : Bool) (b : BucketSt) (createOk : Bool)
    (leg1 : Nat → Nat × Option IOError) (leg2 : List WriteStep)
    (read : Nat → ReadResult) (fws : List WriteStep) (len : Int) :
    Option (Nat × Option IOError × BucketSt) :=
  match dstOk, srcOk with
  | true, true =>
    match bucketGet createOk b with
    | (none, b1) => some (0, some IOError.notHandled, b1)
    | (some c, b1) =>
      let lenCapped : Int := if (maxSpliceSizeLinux : Int) < len then (maxSpliceSizeLinux : Int) else len
      match leg1 lenCapped.toNat with
      | (_, some e) => some (0, some e, bucketFree b1 c false)
      | (retain, none) =>
        if retain = 0 then some (0, some IOError.eof, bucketFree b1 c false)
        else
          match spliceDrain 0 retain leg2 with
          | none => none
          | some (k, some e) => some (k, some e, bucketFree b1 c false)
          | some (k, none) => some (k, none, bucketFree b1 c true)
  | _, _ =>
    match spliceBufferPool read fws len with
    | none => none
    | some (n, e, _) => some (n, e, b)

/-- Client-visible pool operations: `get` (with the success of a possible
`newContext` call), `free` of a held context with the alive flag the
client left on it, one maintenance eviction pass, and `Release`. -/
inductive BOp
  | get (createOk : Bool)
  | free (c : Nat) (alive : Bool)
  | evict
  | release
deriving DecidableEq, Repr

/-- A bucket together with the contexts currently checked out by clients. -/
structure PoolSt where
  bucket : BucketSt
  held : List Nat
deriving DecidableEq, Repr

/-- The empty shard: zero-valued `bucket` before any use. -/
def initPool : PoolSt := ⟨⟨[], [], [], 0⟩, []⟩

/-- Apply one pool operation: `get` moves a context into the client's
hands, `free` gives a held context back via `bucket.Free`, `evict` and
`release` run the corresponding bucket methods. -/
def applyOp (s : PoolSt) : BOp → PoolSt
  | .get createOk =>
    match bucketGet createOk s.bucket with
    | (some c, b) => ⟨b, c :: s.held⟩
    | (none, b) => ⟨b, s.held⟩
  | .free c alive =>
    if c ∈ s.held then ⟨bucketFree s.bucket c alive, s.held.erase c⟩ else s
  | .evict => ⟨bucketEvict s.bucket, s.held⟩
  | .release => ⟨bucketRelease s.bucket, s.held⟩

/-- Run a sequence of pool operations from the empty shard. -/
def runOps (ops : List BOp) : PoolSt := ops.foldl applyOp initPool

/-- The checkout/free exercise of `TestBucket`: get `maxIdleContexts + 1`
contexts from one shard, then free every one of them marked alive (most
recently minted first). -/
def c6TestOps : List BOp :=
  List.replicate (maxIdleContexts + 1) (BOp.get true) ++
    (List.range (maxIdleContexts + 1)).reverse.map (fun c => BOp.free c true)

/-- Bookkeeping invariant of a shard under `Get`/`Free`/eviction (no
`Release`): the `pending` map tracks every live context — both the idle
queue and the clients' checked-out contexts are subsets of it — and queue,
held set and `pending` are duplicate-free, with all context ids below the
freshness bound. -/
structure PoolInv (s : PoolSt) : Prop where
  qp : ∀ c ∈ s.bucket.queue, c ∈ s.bucket.pending
  hp : ∀ c ∈ s.held, c ∈ s.bucket.pending
  qnd : s.bucket.queue.Nodup
  hnd : s.held.Nodup
  pnd : s.bucket.pending.Nodup
  qh : ∀ c ∈ s.bucket.queue, c ∉ s.held
  freshB : ∀ c ∈ s.bucket.pending, c < s.bucket.nextId

/-- On a valid trace, the pool write loop never reports more than the
bytes it started with: any exit value is at most `n + remain`. -/
theorem writeLoopPool_le (buf : List Nat) :
    ∀ (ws : List WriteStep) (pos n remain k : Nat) (e : Option IOError) (d : List Nat),
      validSteps remain ws = true →
      writeLoopPool buf pos n remain ws = some (k, e, d) → k ≤ n + remain := by
  intro ws
  induction ws with
  | nil =>
    intro pos n remain k e d _ h
    cases remain with
    | zero =>
      simp only [writeLoopPool, Option.some.injEq, Prod.mk.injEq] at h
      omega
    | succ m => simp [writeLoopPool] at h
  | cons w ws ih =>
    intro pos n remain k e d hv h
    cases remain with
    | zero =>
      simp only [writeLoopPool, Option.some.injEq, Prod.mk.injEq] at h
      omega
    | succ m =>
      simp only [validSteps, Bool.and_eq_true, decide_eq_true_eq, Bool.or_eq_true] at hv
      obtain ⟨⟨hle, _⟩, hv'⟩ := hv
      by_cases hout : 0 < w.out
      · rw [writeLoopPool, if_pos hout] at h
        cases hrec : writeLoopPool buf (pos + w.out) (n + w.out) (m + 1 - w.out) ws with
        | none => rw [hrec] at h; exact absurd h (by simp)
        | some t =>
          obtain ⟨nf, e', d'⟩ := t
          rw [hrec] at h
          simp only [Option.some.injEq, Prod.mk.injEq] at h
          obtain ⟨h1, _, _⟩ := h
          have := ih (pos + w.out) (n + w.out) (m + 1 - w.out) nf e' d' hv' hrec
          omega
      · have hz : w.out = 0 := by omega
        by_cases heag : w.err = some IOError.eagain
        · rw [writeLoopPool, if_neg hout, if_pos heag] at h
          rw [hz, Nat.sub_zero] at hv'
          exact ih pos n (m + 1) k e d hv' h
        · rw [writeLoopPool, if_neg hout, if_neg heag] at h
          simp only [Option.some.injEq, Prod.mk.injEq] at h
          omega

/-- On a valid trace, the leg-2 drain never reports more than the bytes
sitting in the pipe. -/
theorem spliceDrain_le :
    ∀ (ws : List WriteStep) (n remain k : Nat) (e : Option IOError),
      validSteps remain ws = true →
      spliceDrain n remain ws = some (k, e) → k ≤ n + remain := by
  intro ws
  induction ws with
  | nil =>
    intro n remain k e _ h
    cases remain with
    | zero =>
      simp only [spliceDrain, Option.some.injEq, Prod.mk.injEq] at h
      omega
    | succ m => simp [spliceDrain] at h
  | cons w ws ih =>
    intro n remain k e hv h
    cases remain with
    | zero =>
      simp only [spliceDrain, Option.some.injEq, Prod.mk.injEq] at h
      omega
    | succ m =>
      simp only [validSteps, Bool.and_eq_true, decide_eq_true_eq, Bool.or_eq_true] at hv
      obtain ⟨⟨hle, _⟩, hv'⟩ := hv
      by_cases hout : 0 < w.out
      · rw [spliceDrain, if_pos hout] at h
        have := ih (n + w.out) (m + 1 - w.out) k e hv' h
        omega
      · have hz : w.out = 0 := by omega
        by_cases heag : w.err = some IOError.eagain
        · rw [spliceDrain, if_neg hout, if_pos heag] at h
          rw [hz, Nat.sub_zero] at hv'
          have := ih n (m + 1) k e hv' h
          omega
        · rw [spliceDrain, if_neg hout, if_neg heag] at h
          simp only [Option.some.injEq, Prod.mk.injEq] at h
          omega

/-- When the pool write loop exits with a nil error on a valid trace, it
has written everything: the count equals `n + remain` and the delivered
bytes are exactly the `remain`-byte window of the buffer at `pos`. -/
theorem writeLoopPool_nil_exit (buf : List Nat) :
    ∀ (ws : List WriteStep) (pos n remain k : Nat) (d : List Nat),
      validSteps remain ws = true →
      writeLoopPool buf pos n remain ws = some (k, none, d) →
      k = n + remain ∧ d = (buf.drop pos).take remain := by
  intro ws
  induction ws with
  | nil =>
    intro pos n remain k d _ h
    cases remain with
    | zero =>
      simp only [writeLoopPool, Option.some.injEq, Prod.mk.injEq] at h
      obtain ⟨h1, _, h3⟩ := h
      simp [← h1, ← h3]
    | succ m => simp [writeLoopPool] at h
  | cons w ws ih =>
    intro pos n remain k d hv h
    cases remain with
    | zero =>
      simp only [writeLoopPool, Option.some.injEq, Prod.mk.injEq] at h
      obtain ⟨h1, _, h3⟩ := h
      simp [← h1, ← h3]
    | succ m =>
      simp only [validSteps, Bool.and_eq_true, decide_eq_true_eq, Bool.or_eq_true] at hv
      obtain ⟨⟨hle, _⟩, hv'⟩ := hv
      by_cases hout : 0 < w.out
      · rw [writeLoopPool, if_pos hout] at h
        cases hrec : writeLoopPool buf (pos + w.out) (n + w.out) (m + 1 - w.out) ws with
        | none => rw [hrec] at h; exact absurd h (by simp)
        | some t =>
          obtain ⟨nf, e', d'⟩ := t
          rw [hrec] at h
          simp only [Option.some.injEq, Prod.mk.injEq] at h
          obtain ⟨rfl, he, rfl⟩ := h
          rw [he] at hrec
          obtain ⟨hk, hd⟩ := ih (pos + w.out) (n + w.out) (m + 1 - w.out) nf d' hv' hrec
          constructor
          · omega
          · rw [hd]
            have hsum : w.out + (m + 1 - w.out) = m + 1 := by omega
            rw [← hsum, List.take_add, List.drop_drop, Nat.add_sub_cancel_left]
      · have hz : w.out = 0 := by omega
        by_cases heag : w.err = some IOError.eagain
        · rw [writeLoopPool, if_neg hout, if_pos heag] at h
          rw [hz, Nat.sub_zero] at hv'
          exact ih pos n (m + 1) k d hv' h
        · rw [writeLoopPool, if_neg hout, if_neg heag] at h
          simp at h


/-- When the context-variant write loop exits with a nil error on a valid
trace, it has written everything (the `io.Writer` contract rules out a
zero-byte success, so the error-propagating exit cannot carry `nil`). -/
theorem writeLoopCtx_nil_exit (buf : List Nat) :
    ∀ (ws : List WriteStep) (pos n remain k : Nat) (d : List Nat),
      validSteps remain ws = true →
      writeLoopCtx buf pos n remain ws = some (k, none, d) →
      k = n + remain ∧ d = (buf.drop pos).take remain := by
  intro ws
  induction ws with
  | nil =>
    intro pos n remain k d _ h
    cases remain with
    | zero =>
      simp only [writeLoopCtx, Option.some.injEq, Prod.mk.injEq] at h
      obtain ⟨h1, _, h3⟩ := h
      simp [← h1, ← h3]
    | succ m => simp [writeLoopCtx] at h
  | cons w ws ih =>
    intro pos n remain k d hv h
    cases remain with
    | zero =>
      simp only [writeLoopCtx, Option.some.injEq, Prod.mk.injEq] at h
      obtain ⟨h1, _, h3⟩ := h
      simp [← h1, ← h3]
    | succ m =>
      simp only [validSteps, Bool.and_eq_true, decide_eq_true_eq, Bool.or_eq_true] at hv
      obtain ⟨⟨hle, hwc⟩, hv'⟩ := hv
      by_cases hout : 0 < w.out
      · rw [writeLoopCtx, if_pos hout] at h
        cases hrec : writeLoopCtx buf (pos + w.out) (n + w.out) (m + 1 - w.out) ws with
        | none => rw [hrec] at h; exact absurd h (by simp)
        | some t =>
          obtain ⟨nf, e', d'⟩ := t
          rw [hrec] at h
          simp only [Option.some.injEq, Prod.mk.injEq] at h
          obtain ⟨rfl, he, rfl⟩ := h
          rw [he] at hrec
          obtain ⟨hk, hd⟩ := ih (pos + w.out) (n + w.out) (m + 1 - w.out) nf d' hv' hrec
          constructor
          · omega
          · rw [hd]
            have hsum : w.out + (m + 1 - w.out) = m + 1 := by omega
            rw [← hsum, List.take_add, List.drop_drop, Nat.add_sub_cancel_left]
      · have hz : w.out = 0 := by omega
        by_cases heag : w.err = some IOError.eagain
        · rw [writeLoopCtx, if_neg hout, if_pos heag] at h
          rw [hz, Nat.sub_zero] at hv'
          exact ih pos n (m + 1) k d hv' h
        · rw [writeLoopCtx, if_neg hout, if_neg heag] at h
          simp only [Option.some.injEq, Prod.mk.injEq] at h
          obtain ⟨_, he, _⟩ := h
          rcases hwc with hc | hc
          · exact absurd hc hout
          · rw [he] at hc
            simp at hc

/-- Membership survives backwards through a fold of erasures. -/
theorem mem_of_mem_foldl_erase :
    ∀ (l p : List Nat) (d : Nat), d ∈ l.foldl (fun q c => q.erase c) p → d ∈ p := by
  intro l
  induction l with
  | nil => intro p d h; simpa using h
  | cons a l ih =>
    intro p d h
    rw [List.foldl_cons] at h
    exact List.mem_of_mem_erase (ih (p.erase a) d h)

/-- An element not among the erased ones survives a fold of erasures. -/
theorem mem_foldl_erase_of_not_mem :
    ∀ (l p : List Nat) (d : Nat), d ∉ l → d ∈ p → d ∈ l.foldl (fun q c => q.erase c) p := by
  intro l
  induction l with
  | nil => intro p d _ hp; simpa using hp
  | cons a l ih =>
    intro p d hnl hp
    rw [List.foldl_cons]
    have hda : d ≠ a := fun hda => hnl (hda ▸ List.mem_cons_self a l)
    exact ih (p.erase a) d (fun hdl => hnl (List.mem_cons_of_mem a hdl))
      ((List.mem_erase_of_ne hda).mpr hp)

/-- A fold of erasures preserves freedom from duplicates. -/
theorem nodup_foldl_erase :
    ∀ (l p : List Nat), p.Nodup → (l.foldl (fun q c => q.erase c) p).Nodup := by
  intro l
  induction l with
  | nil => intro p hp; simpa using hp
  | cons a l ih =>
    intro p hp
    rw [List.foldl_cons]
    exact ih (p.erase a) (hp.erase a)

/-- A property preserved by every pool operation holds after any run. -/
theorem foldl_applyOp_inv (P : PoolSt → Prop)
    (hstep : ∀ s op, P s → P (applyOp s op)) :
    ∀ (ops : List BOp) (s : PoolSt), P s → P (ops.foldl applyOp s) := by
  intro ops
  induction ops with
  | nil => intro s h; simpa using h
  | cons op ops ih =>
    intro s h
    rw [List.foldl_cons]
    exact ih (applyOp s op) (hstep s op h)

/-- A property preserved by every pool operation other than `Release`
holds after any `Release`-free run. -/
theorem foldl_applyOp_inv_no_release (P : PoolSt → Prop)
    (hstep : ∀ s op, op ≠ BOp.release → P s → P (applyOp s op)) :
    ∀ (ops : List BOp) (s : PoolSt), BOp.release ∉ ops → P s → P (ops.foldl applyOp s) := by
  intro ops
  induction ops with
  | nil => intro s _ h; simpa using h
  | cons op ops ih =>
    intro s hnr h
    rw [List.foldl_cons]
    have h1 : op ≠ BOp.release := fun he => hnr (he ▸ List.mem_cons_self op ops)
    exact ih (applyOp s op) (fun hm => hnr (List.mem_cons_of_mem op hm)) (hstep s op h1 h)

/-- Every pool operation other than `Release` preserves the shard
bookkeeping invariant. -/
theorem poolInv_step (s : PoolSt) (op : BOp) (hop : op ≠ BOp.release)
    (h : PoolInv s) : PoolInv (applyOp s op) := by
  obtain ⟨⟨p, q, dd, nx⟩, hl⟩ := s
  obtain ⟨qp, hp, qnd, hnd, pnd, qh, freshB⟩ := h
  simp only at qp hp qnd hnd pnd qh freshB
  cases op with
  | release => exact absurd rfl hop
  | get ok =>
    cases q with
    | cons c rest =>
      simp only [applyOp, bucketGet]
      obtain ⟨hcr, hrest⟩ := List.nodup_cons.mp qnd
      refine ⟨?_, ?_, hrest, ?_, pnd, ?_, freshB⟩
      · intro d hd
        exact qp d (List.mem_cons_of_mem c hd)
      · intro d hd
        rcases List.mem_cons.mp hd with rfl | hd'
        · exact qp d (List.mem_cons_self d rest)
        · exact hp d hd'
      · exact List.nodup_cons.mpr ⟨qh c (List.mem_cons_self c rest), hnd⟩
      · intro d hd hmem
        rcases List.mem_cons.mp hmem with rfl | hd'
        · exact hcr hd
        · exact qh d (List.mem_cons_of_mem c hd) hd'
    | nil =>
      cases ok with
      | false =>
        simp only [applyOp, bucketGet, Bool.false_eq_true, if_false]
        exact ⟨qp, hp, qnd, hnd, pnd, qh, freshB⟩
      | true =>
        simp only [applyOp, bucketGet, if_true]
        have hnxp : nx ∉ p := fun hm => absurd (freshB nx hm) (lt_irrefl nx)
        have hnxh : nx ∉ hl := fun hm => absurd (freshB nx (hp nx hm)) (lt_irrefl nx)
        refine ⟨?_, ?_, List.nodup_nil, ?_, ?_, ?_, ?_⟩
        · intro d hd; exact absurd hd (List.not_mem_nil d)
        · intro d hd
          rcases List.mem_cons.mp hd with rfl | hd'
          · exact List.mem_cons_self d p
          · exact List.mem_cons_of_mem nx (hp d hd')
        · exact List.nodup_cons.mpr ⟨hnxh, hnd⟩
        · exact List.nodup_cons.mpr ⟨hnxp, pnd⟩
        · intro d hd; exact absurd hd (List.not_mem_nil d)
        · intro d hd
          rcases List.mem_cons.mp hd with rfl | hd'
          · exact Nat.lt_succ_self d
          · exact Nat.lt_succ_of_lt (freshB d hd')
  | free c alive =>
    by_cases hcin : c ∈ hl
    · simp only [applyOp, if_pos hcin]
      have hcq : c ∉ q := fun hcq => qh c hcq hcin
      by_cases hroom : q.length < maxIdleContexts ∧ alive = true
      · rw [bucketFree, if_pos hroom]
        refine ⟨?_, ?_, ?_, hnd.erase c, pnd, ?_, freshB⟩
        · intro d hd
          rcases List.mem_append.mp hd with hd' | hd'
          · exact qp d hd'
          · rw [List.mem_singleton.mp hd']
            exact hp c hcin
        · intro d hd
          exact hp d (List.mem_of_mem_erase hd)
        · refine List.nodup_append.mpr ⟨qnd, List.nodup_singleton c, ?_⟩
          intro d hdq hdc
          rw [List.mem_singleton.mp hdc] at hdq
          exact hcq hdq
        · intro d hd hmem
          rcases List.mem_append.mp hd with hd' | hd'
          · exact qh d hd' (List.mem_of_mem_erase hmem)
          · rw [List.mem_singleton.mp hd'] at hmem
            exact hnd.not_mem_erase hmem
      · rw [bucketFree, if_neg hroom]
        refine ⟨?_, ?_, qnd, hnd.erase c, pnd.erase c, ?_, ?_⟩
        · intro d hd
          have hdc : d ≠ c := fun hdc => hcq (hdc ▸ hd)
          exact (List.mem_erase_of_ne hdc).mpr (qp d hd)
        · intro d hd
          obtain ⟨hdc, hd'⟩ := hnd.mem_erase_iff.mp hd
          exact (List.mem_erase_of_ne hdc).mpr (hp d hd')
        · intro d hd hmem
          exact qh d hd (List.mem_of_mem_erase hmem)
        · intro d hd
          exact freshB d (List.mem_of_mem_erase hd)
    · simp only [applyOp, if_neg hcin]
      exact ⟨qp, hp, qnd, hnd, pnd, qh, freshB⟩
  | evict =>
    by_cases hev : (q.drop (q.length / 2)).length = 0
    · simp only [applyOp, bucketEvict, hev, if_true]
      exact ⟨qp, hp, qnd, hnd, pnd, qh, freshB⟩
    · simp only [applyOp, bucketEvict, hev, if_false]
      have hsplit : q.take (q.length / 2) ++ q.drop (q.length / 2) = q :=
        List.take_append_drop (q.length / 2) q
      have hqnd2 : (q.take (q.length / 2) ++ q.drop (q.length / 2)).Nodup := by
        rw [hsplit]; exact qnd
      obtain ⟨htnd, hdnd, hdisj⟩ := List.nodup_append.mp hqnd2
      refine ⟨?_, ?_, ?_, hnd, ?_, ?_, ?_⟩
      · intro d hd
        exact mem_foldl_erase_of_not_mem _ _ d (fun hdrop => hdisj hd hdrop)
          (qp d ((List.take_sublist _ q).subset hd))
      · intro d hd
        have hdnq : d ∉ q.drop (q.length / 2) := fun hdrop =>
          qh d ((List.drop_sublist _ q).subset hdrop) hd
        exact mem_foldl_erase_of_not_mem _ _ d hdnq (hp d hd)
      · exact htnd
      · exact nodup_foldl_erase _ p pnd
      · intro d hd
        exact qh d ((List.take_sublist _ q).subset hd)
      · intro d hd
        exact freshB d (mem_of_mem_foldl_erase _ p d hd)

/-- The idle queue never grows past `maxIdleContexts` under any single
pool operation. -/
theorem queueLen_step (s : PoolSt) (op : BOp)
    (h : s.bucket.queue.length ≤ maxIdleContexts) :
    (applyOp s op).bucket.queue.length ≤ maxIdleContexts := by
  obtain ⟨⟨p, q, dd, nx⟩, hl⟩ := s
  simp only at h
  cases op with
  | get ok =>
    cases q with
    | cons c rest =>
      simp only [applyOp, bucketGet]
      simp only [List.length_cons] at h
      omega
    | nil =>
      cases ok with
      | false => simp [applyOp, bucketGet]
      | true => simp [applyOp, bucketGet]
  | free c alive =>
    by_cases hcin : c ∈ hl
    · simp only [applyOp, if_pos hcin]
      by_cases hroom : q.length < maxIdleContexts ∧ alive = true
      · rw [bucketFree, if_pos hroom]
        simp only [List.length_append, List.length_singleton]
        omega
      · rw [bucketFree, if_neg hroom]
        exact h
    · simpa [applyOp, if_neg hcin] using h
  | evict =>
    by_cases hev : (q.drop (q.length / 2)).length = 0
    · simpa [applyOp, bucketEvict, hev] using h
    · simp only [applyOp, bucketEvict, hev, if_false]
      simp only [List.length_take]
      omega
  | release =>
    by_cases hpe : p = []
    · simpa [applyOp, bucketRelease, hpe] using h
    · simp [applyOp, bucketRelease, hpe]

/-- Checking out a fresh context `k` times in a row from the empty shard
mints ids `0..k-1`, leaves the idle queue empty, and records every minted
context in `pending` and in the clients' hands. -/
theorem runOps_gets (k : Nat) :
    runOps (List.replicate k (BOp.get true)) =
      ⟨⟨(List.range k).reverse, [], [], k⟩, (List.range k).reverse⟩ := by
  induction k with
  | zero => rfl
  | succ m ih =>
    rw [runOps, List.replicate_succ' m (BOp.get true), List.foldl_append]
    rw [runOps] at ih
    rw [ih]
    simp [applyOp, bucketGet, List.range_succ]

/-- Freeing a list of held contexts in order, all alive, while the idle
queue has room for all of them, appends them to the queue in that order
and leaves the rest of the held contexts untouched. -/
theorem runOps_frees_alive :
    ∀ (hs rest : List Nat) (b : BucketSt),
      b.queue.length + hs.length ≤ maxIdleContexts →
      List.foldl applyOp ⟨b, hs ++ rest⟩ (hs.map (fun c => BOp.free c true)) =
        ⟨⟨b.pending, b.queue ++ hs, b.destroyed, b.nextId⟩, rest⟩ := by
  intro hs
  induction hs with
  | nil =>
    intro rest b _
    simp
  | cons c hs ih =>
    intro rest b hlen
    rw [List.map_cons, List.foldl_cons]
    have hmem : c ∈ (c :: hs) ++ rest := List.mem_cons_self c (hs ++ rest)
    have hroom : b.queue.length < maxIdleContexts := by
      simp only [List.length_cons] at hlen
      omega
    have happ : applyOp ⟨b, (c :: hs) ++ rest⟩ (BOp.free c true) =
        ⟨⟨b.pending, b.queue ++ [c], b.destroyed, b.nextId⟩, hs ++ rest⟩ := by
      simp only [applyOp]
      rw [if_pos hmem, bucketFree, if_pos ⟨hroom, rfl⟩]
      simp [List.cons_append, List.erase_cons_head]
    rw [happ]
    have hlen' : (b.queue ++ [c]).length + hs.length ≤ maxIdleContexts := by
      simp only [List.length_append, List.length_cons, List.length_nil] at hlen ⊢
      omega
    have := ih rest ⟨b.pending, b.queue ++ [c], b.destroyed, b.nextId⟩ hlen'
    rw [this]
    rw [← List.append_cons b.queue c hs]

set_option maxRecDepth 4000 in
/-- The `TestBucket` exercise computed out: getting `maxIdleContexts + 1`
contexts and freeing them all alive (most recent first) leaves the idle
queue holding contexts `256, …, 1`, with context `0` — the excess free at
a full queue — closed, not queued. -/
theorem runOps_c6_state :
    runOps c6TestOps =
      ⟨⟨((List.range' 1 256).reverse ++ [0]).erase 0,
        (List.range' 1 256).reverse, [0], 257⟩, []⟩ := by
  have h257 : maxIdleContexts + 1 = 257 := rfl
  have hsplit : (List.range 257).reverse = (List.range' 1 256).reverse ++ [0] := by
    have h1 : (257 : Nat) = 256 + 1 := rfl
    rw [List.range_eq_range' 257, h1, List.range'_succ 0 256 1]
    simp
  rw [runOps, c6TestOps, h257, List.foldl_append]
  have hg := runOps_gets 257
  rw [runOps] at hg
  rw [hg, hsplit]
  rw [List.map_append, List.foldl_append]
  have hqlen : ((List.range' 1 256).reverse).length = 256 := by
    rw [List.length_reverse]
    exact List.length_range' 1 1 256
  rw [runOps_frees_alive ((List.range' 1 256).reverse) [0]
      ⟨(List.range' 1 256).reverse ++ [0], [], [], 257⟩
      (by rw [hqlen]; exact Nat.le_refl _)]
  simp only [List.map_cons, List.map_nil, List.foldl_cons, List.foldl_nil, applyOp]
  rw [if_pos (List.mem_singleton_self 0), bucketFree, if_neg]
  · simp only [List.nil_append, List.erase_cons_head]
  · intro hcon
    have hlt := hcon.1
    rw [List.nil_append, hqlen] at hlt
    exact absurd hlt (lt_irrefl 256)

/-- A `Free` of a context whose alive flag is false always takes the
destroy branch: `pending` loses the context, the queue is untouched, and
`Close` runs on it. -/
theorem bucketFree_dead (b : BucketSt) (c : Nat) :
    bucketFree b c false = ⟨b.pending.erase c, b.queue, c :: b.destroyed, b.nextId⟩ := by
  rw [bucketFree, if_neg]
  intro hcon
  exact Bool.false_ne_true hcon.2

/-- C5 counterexample: after the reachable operation sequence "Get a fresh
context, then Free it alive", context 0 is a member of the bucket's
pending set and of its idle queue at the same time, refuting the claimed
mutual exclusivity of the three classes. -/
theorem c5_counterexample :
    0 ∈ (runOps [BOp.get true, BOp.free 0 true]).bucket.pending ∧
    0 ∈ (runOps [BOp.get true, BOp.free 0 true]).bucket.queue := by
  constructor <;> decide

/-- C5 (amended): in every state reachable by `Get`/`Free`/eviction
sequences without `Release`, the pending set tracks every live context:
both the idle queue and the checked-out contexts are subsets of `pending`
(so pending and the idle queue are not disjoint classes — a context freed
alive is in both). -/
theorem c5_pending_superset_amended (ops : List BOp) (hnr : BOp.release ∉ ops) :
    (∀ c ∈ (runOps ops).bucket.queue, c ∈ (runOps ops).bucket.pending) ∧
    (∀ c ∈ (runOps ops).held, c ∈ (runOps ops).bucket.pending) := by
  have hinit : PoolInv initPool := by
    refine ⟨?_, ?_, List.nodup_nil, List.nodup_nil, List.nodup_nil, ?_, ?_⟩ <;>
      intro c hc <;> exact absurd hc (List.not_mem_nil c)
  have hinv : PoolInv (runOps ops) :=
    foldl_applyOp_inv_no_release PoolInv poolInv_step ops initPool hnr hinit
  exact ⟨hinv.qp, hinv.hp⟩

/-- C5 amended witness at the concrete two-operation run from the
counterexample state space. -/
theorem c5_pending_superset_amended_witness :
    (∀ c ∈ (runOps [BOp.get true, BOp.free 0 true]).bucket.queue,
      c ∈ (runOps [BOp.get true, BOp.free 0 true]).bucket.pending) ∧
    (∀ c ∈ (runOps [BOp.get true, BOp.free 0 true]).held,
      c ∈ (runOps [BOp.get true, BOp.free 0 true]).bucket.pending) :=
  c5_pending_superset_amended [BOp.get true, BOp.free 0 true] (by decide)

set_option maxRecDepth 4000 in
/-- C6: the idle queue length never exceeds `maxIdleContexts` after any
sequence of pool operations, and in the concrete `TestBucket` exercise —
checking out `maxIdleContexts + 1` contexts and freeing them all alive —
the queue ends exactly at the cap while the excess context (id 0, the one
freed at a full queue) is destroyed and not queued. -/
theorem c6_idle_queue_cap :
    (∀ ops : List BOp, (runOps ops).bucket.queue.length ≤ maxIdleContexts) ∧
    (runOps c6TestOps).bucket.queue.length = maxIdleContexts ∧
    (runOps c6TestOps).bucket.destroyed = [0] ∧
    0 ∉ (runOps c6TestOps).bucket.queue := by
  refine ⟨?_, ?_, ?_, ?_⟩
  · intro ops
    rw [runOps]
    exact foldl_applyOp_inv (fun s => s.bucket.queue.length ≤ maxIdleContexts)
      queueLen_step ops initPool (Nat.zero_le maxIdleContexts)
  · rw [runOps_c6_state]
    rw [show (⟨⟨((List.range' 1 256).reverse ++ [0]).erase 0,
        (List.range' 1 256).reverse, [0], 257⟩, []⟩ : PoolSt).bucket.queue
      = (List.range' 1 256).reverse from rfl]
    rw [List.length_reverse]
    exact List.length_range' 1 1 256
  · rw [runOps_c6_state]
  · rw [runOps_c6_state]
    intro hmem
    rw [show (⟨⟨((List.range' 1 256).reverse ++ [0]).erase 0,
        (List.range' 1 256).reverse, [0], 257⟩, []⟩ : PoolSt).bucket.queue
      = (List.range' 1 256).reverse from rfl, List.mem_reverse] at hmem
    have := (List.mem_range'_1.mp hmem).1
    omega

/-- C7: releasing a context with `alive = false` via `bucket.Free` always
destroys it — `Close` runs on it (closing both handles together) and the
idle queue is left unchanged, however much room it has. -/
theorem c7_dead_context_destroyed (b : BucketSt) (c : Nat) :
    bucketFree b c false = ⟨b.pending.erase c, b.queue, c :: b.destroyed, b.nextId⟩ ∧
    (bucketFree b c false).queue = b.queue ∧
    c ∈ (bucketFree b c false).destroyed := by
  refine ⟨bucketFree_dead b c, ?_, ?_⟩ <;> rw [bucketFree_dead b c]
  exact List.mem_cons_self c b.destroyed

/-- C8 counterexample: with contexts 1 then 2 freed into the idle queue
(2 most recently queued), `Get` returns context 1, the least recently
queued one — not 2 as the claimed LIFO discipline requires. -/
theorem c8_counterexample :
    bucketFree ⟨[1, 2], [1], [], 3⟩ 2 true = ⟨[1, 2], [1, 2], [], 3⟩ ∧
    (bucketGet true ⟨[1, 2], [1, 2], [], 3⟩).1 = some 1 ∧
    (1 : Nat) ≠ 2 := by
  refine ⟨by decide, by decide, by decide⟩

/-- C8 (amended): the idle queue is FIFO, not LIFO — `Free` appends to the
back of the queue and `Get` pops `queue[0]`, the least recently queued
entry; a new context is created only when the queue is empty. -/
theorem c8_fifo_amended (ok : Bool) (b : BucketSt) (c : Nat) (rest : List Nat)
    (h : b.queue = c :: rest) :
    bucketGet ok b = (some c, ⟨b.pending, rest, b.destroyed, b.nextId⟩) ∧
    (∀ b2 : BucketSt, ∀ x : Nat, b2.queue.length < maxIdleContexts →
      (bucketFree b2 x true).queue = b2.queue ++ [x]) ∧
    (∀ b3 : BucketSt, b3.queue = [] →
      bucketGet true b3
        = (some b3.nextId, ⟨b3.nextId :: b3.pending, [], b3.destroyed, b3.nextId + 1⟩)) := by
  refine ⟨?_, ?_, ?_⟩
  · rw [bucketGet, h]
  · intro b2 x hroom
    rw [bucketFree, if_pos ⟨hroom, rfl⟩]
  · intro b3 h3
    rw [bucketGet, h3, if_pos rfl]

/-- C8 amended witness: the concrete bucket with queue `[1, 2]`. -/
theorem c8_fifo_amended_witness :
    bucketGet true ⟨[1, 2], [1, 2], [], 3⟩
      = (some 1, ⟨[1, 2], [2], [], 3⟩) ∧
    (∀ b2 : BucketSt, ∀ x : Nat, b2.queue.length < maxIdleContexts →
      (bucketFree b2 x true).queue = b2.queue ++ [x]) ∧
    (∀ b3 : BucketSt, b3.queue = [] →
      bucketGet true b3
        = (some b3.nextId, ⟨b3.nextId :: b3.pending, [], b3.destroyed, b3.nextId + 1⟩)) :=
  c8_fifo_amended true ⟨[1, 2], [1, 2], [], 3⟩ 1 [2] rfl

/-- C2 counterexample: the pool fallback moves 1 byte, then the write
fails with errno 32 (a fatal error distinct from `EAGAIN`); the code
returns `(1, EOF)` — the count is exact but the error returned is the
`EOF` sentinel, not the failing write's own error as claimed. -/
theorem c2_counterexample :
    spliceBufferPool (fun _ => ⟨2, none, [5, 6]⟩)
        [⟨1, none⟩, ⟨0, some (IOError.other 32)⟩] 100
      = some (1, some IOError.eof, [5]) ∧
    IOError.eof ≠ IOError.other 32 := by
  refine ⟨by decide, by decide⟩

/-- C2 (amended): when a write fails with a fatal error `e ≠ EAGAIN` after
`k` bytes have been moved, the exact count `k` is always returned, but the
accompanying error is the `EOF` sentinel on the pool-fallback write loop
and on the Linux leg-2 drain, and is the error `e` itself only on the
context-variant (BSD-style) write loop. -/
theorem c2_error_propagation_amended
    (buf : List Nat) (pos k m : Nat) (e : IOError) (ws : List WriteStep)
    (he : e ≠ IOError.eagain) :
    writeLoopPool buf pos k (m + 1) (⟨0, some e⟩ :: ws)
      = some (k, some IOError.eof, []) ∧
    spliceDrain k (m + 1) (⟨0, some e⟩ :: ws) = some (k, some IOError.eof) ∧
    writeLoopCtx buf pos k (m + 1) (⟨0, some e⟩ :: ws) = some (k, some e, []) := by
  have h1 : ¬ (0 < (⟨0, some e⟩ : WriteStep).out) := by simp
  have h2 : ¬ ((⟨0, some e⟩ : WriteStep).err = some IOError.eagain) := by
    intro hh
    exact he (Option.some.inj hh)
  refine ⟨?_, ?_, ?_⟩
  · rw [writeLoopPool, if_neg h1, if_neg h2]
  · rw [spliceDrain, if_neg h1, if_neg h2]
  · rw [writeLoopCtx, if_neg h1, if_neg h2]

/-- C2 amended witness: one byte already moved, then a fatal errno-32
write at position 1 with one byte left. -/
theorem c2_error_propagation_amended_witness :
    writeLoopPool [5, 6] 1 1 (0 + 1) (⟨0, some (IOError.other 32)⟩ :: [])
      = some (1, some IOError.eof, []) ∧
    spliceDrain 1 (0 + 1) (⟨0, some (IOError.other 32)⟩ :: [])
      = some (1, some IOError.eof) ∧
    writeLoopCtx [5, 6] 1 1 (0 + 1) (⟨0, some (IOError.other 32)⟩ :: [])
      = some (1, some (IOError.other 32), []) :=
  c2_error_propagation_amended [5, 6] 1 1 0 (IOError.other 32) [] (by decide)

/-- C4 counterexample: with an empty idle queue and pipe creation failing,
`Bucket.Get` fails and `Splice` returns `(0, ErrNotHandled)` unchanged —
while the fallback copy on the same connections would have moved 2 bytes,
so the call does not fall back as claimed. -/
theorem c4_counterexample :
    SpliceLinux true true ⟨[], [], [], 0⟩ false (fun _ => (0, none)) []
        (fun _ => ⟨2, none, [5, 6]⟩) [⟨2, none⟩] 100
      = some (0, some IOError.notHandled, ⟨[], [], [], 0⟩) ∧
    spliceBufferPool (fun _ => ⟨2, none, [5, 6]⟩) [⟨2, none⟩] 100
      = some (2, none, [5, 6]) := by
  refine ⟨by decide, by decide⟩

/-- C4 (amended): when descriptor resolution succeeds but `Bucket.Get`
fails, `Splice` returns `(0, ErrNotHandled)` with the bucket unchanged;
it does not run the buffered fallback (only `netFd` failures do that). -/
theorem c4_get_failure_amended
    (b : BucketSt) (leg1 : Nat → Nat × Option IOError) (leg2 : List WriteStep)
    (read : Nat → ReadResult) (fws : List WriteStep) (len : Int)
    (hq : b.queue = []) :
    SpliceLinux true true b false leg1 leg2 read fws len
      = some (0, some IOError.notHandled, b) := by
  simp only [SpliceLinux, bucketGet, hq, Bool.false_eq_true, if_false]

/-- C4 amended witness at the empty bucket. -/
theorem c4_get_failure_amended_witness :
    SpliceLinux true true ⟨[], [], [], 5⟩ false (fun _ => (1, none)) [⟨1, none⟩]
        (fun _ => ⟨2, none, [5, 6]⟩) [⟨2, none⟩] 9
      = some (0, some IOError.notHandled, ⟨[], [], [], 5⟩) :=
  c4_get_failure_amended ⟨[], [], [], 5⟩ (fun _ => (1, none)) [⟨1, none⟩]
    (fun _ => ⟨2, none, [5, 6]⟩) [⟨2, none⟩] 9 rfl

/-- Reduction of the Linux `Splice` on the clean end-of-stream path: with
a context successfully obtained and leg 1 moving zero bytes without error,
the call returns `(0, EOF)` and the deferred `Free` runs with
`ctx.alive = false`. -/
theorem spliceLinux_eos (b b1 : BucketSt) (createOk : Bool) (c : Nat)
    (leg1 : Nat → Nat × Option IOError) (leg2 : List WriteStep)
    (read : Nat → ReadResult) (fws : List WriteStep) (len : Int)
    (hget : bucketGet createOk b = (some c, b1))
    (hleg1 : ∀ req, leg1 req = (0, none)) :
    SpliceLinux true true b createOk leg1 leg2 read fws len
      = some (0, some IOError.eof, bucketFree b1 c false) := by
  simp [SpliceLinux, hget, hleg1]

/-- C3: a source immediately at end-of-stream yields `(0, EOF)` from both
the zero-copy path (leg 1 returns zero bytes, no error) and the pool
fallback (single read returns zero bytes with no error, or returns `EOF`),
and the Context obtained for the zero-copy call is not leaked: the
deferred `Free` accounts for it fully — it leaves both the pending set and
the idle queue and its handles are closed. -/
theorem c3_eof_both_paths (b b1 : BucketSt) (createOk : Bool) (c : Nat)
    (leg1 : Nat → Nat × Option IOError) (leg2 : List WriteStep)
    (read : Nat → ReadResult) (fws : List WriteStep) (len : Int)
    (hget : bucketGet createOk b = (some c, b1))
    (hleg1 : ∀ req, leg1 req = (0, none))
    (hpnd : b1.pending.Nodup) (hcq : c ∉ b1.queue) :
    SpliceLinux true true b createOk leg1 leg2 read fws len
      = some (0, some IOError.eof, bucketFree b1 c false) ∧
    c ∉ (bucketFree b1 c false).pending ∧
    c ∉ (bucketFree b1 c false).queue ∧
    c ∈ (bucketFree b1 c false).destroyed ∧
    (∀ r : ReadResult, r.retain = 0 → r.err = none →
      spliceBufferPool (fun _ => r) fws len = some (0, some IOError.eof, [])) ∧
    (∀ r : ReadResult, r.err = some IOError.eof →
      spliceBufferPool (fun _ => r) fws len = some (0, some IOError.eof, [])) := by
  refine ⟨spliceLinux_eos b b1 createOk c leg1 leg2 read fws len hget hleg1,
    ?_, ?_, ?_, ?_, ?_⟩
  · rw [bucketFree_dead b1 c]
    exact hpnd.not_mem_erase
  · rw [bucketFree_dead b1 c]
    exact hcq
  · rw [bucketFree_dead b1 c]
    exact List.mem_cons_self c b1.destroyed
  · intro r hr0 hre
    simp [spliceBufferPool, hre, hr0]
  · intro r hre
    simp only [spliceBufferPool, hre]

/-- C3 witness: fresh context 0 from the empty shard, leg 1 at clean
end-of-stream, and the two zero-byte read shapes on the fallback. -/
theorem c3_eof_both_paths_witness :
    SpliceLinux true true ⟨[], [], [], 0⟩ true (fun _ => (0, none)) [⟨1, none⟩]
        (fun _ => ⟨0, none, []⟩) [⟨1, none⟩] 100
      = some (0, some IOError.eof, bucketFree ⟨[0], [], [], 1⟩ 0 false) ∧
    0 ∉ (bucketFree ⟨[0], [], [], 1⟩ 0 false).pending ∧
    0 ∉ (bucketFree ⟨[0], [], [], 1⟩ 0 false).queue ∧
    0 ∈ (bucketFree ⟨[0], [], [], 1⟩ 0 false).destroyed ∧
    (∀ r : ReadResult, r.retain = 0 → r.err = none →
      spliceBufferPool (fun _ => r) [⟨1, none⟩] 100 = some (0, some IOError.eof, [])) ∧
    (∀ r : ReadResult, r.err = some IOError.eof →
      spliceBufferPool (fun _ => r) [⟨1, none⟩] 100 = some (0, some IOError.eof, [])) :=
  c3_eof_both_paths ⟨[], [], [], 0⟩ ⟨[0], [], [], 1⟩ true 0 (fun _ => (0, none))
    [⟨1, none⟩] (fun _ => ⟨0, none, []⟩) [⟨1, none⟩] 100 rfl (fun _ => rfl)
    (by decide) (by decide)

/-- C9 counterexample: at clean end-of-stream the Linux `Splice` frees its
freshly minted context 0 with `alive` still false, so the final bucket has
an empty idle queue and context 0 among the destroyed — it is not
re-queued for reuse as claimed. -/
theorem c9_counterexample :
    SpliceLinux true true ⟨[], [], [], 0⟩ true (fun _ => (0, none)) []
        (fun _ => ⟨1, none, [7]⟩) [] 100
      = some (0, some IOError.eof, ⟨[], [], [0], 1⟩) ∧
    (⟨[], [], [0], 1⟩ : BucketSt).queue = [] ∧
    0 ∈ (⟨[], [], [0], 1⟩ : BucketSt).destroyed := by
  refine ⟨by decide, by decide, by decide⟩

/-- C9 (amended): on a clean end-of-stream leg 1, `Splice` returns
`(0, EOF)` but releases the obtained Context via `Free` with
`ctx.alive = false` (the flag is only set to true after a completed
drain), so the Context is destroyed — erased from pending, its handles
closed, and never appended to the idle queue. -/
theorem c9_eof_context_destroyed_amended (b b1 : BucketSt) (createOk : Bool) (c : Nat)
    (leg1 : Nat → Nat × Option IOError) (leg2 : List WriteStep)
    (read : Nat → ReadResult) (fws : List WriteStep) (len : Int)
    (hget : bucketGet createOk b = (some c, b1))
    (hleg1 : ∀ req, leg1 req = (0, none)) :
    ∃ b2, SpliceLinux true true b createOk leg1 leg2 read fws len
        = some (0, some IOError.eof, b2) ∧
      b2 = bucketFree b1 c false ∧
      b2.queue = b1.queue ∧
      b2.destroyed = c :: b1.destroyed ∧
      b2.pending = b1.pending.erase c := by
  refine ⟨bucketFree b1 c false,
    spliceLinux_eos b b1 createOk c leg1 leg2 read fws len hget hleg1, rfl, ?_, ?_, ?_⟩ <;>
    rw [bucketFree_dead b1 c]

/-- C9 amended witness: the empty shard and a clean end-of-stream leg 1. -/
theorem c9_eof_context_destroyed_amended_witness :
    ∃ b2, SpliceLinux true true ⟨[], [], [], 0⟩ true (fun _ => (0, none)) [⟨1, none⟩]
        (fun _ => ⟨1, none, [7]⟩) [⟨1, none⟩] 100
        = some (0, some IOError.eof, b2) ∧
      b2 = bucketFree ⟨[0], [], [], 1⟩ 0 false ∧
      b2.queue = (⟨[0], [], [], 1⟩ : BucketSt).queue ∧
      b2.destroyed = 0 :: (⟨[0], [], [], 1⟩ : BucketSt).destroyed ∧
      b2.pending = (⟨[0], [], [], 1⟩ : BucketSt).pending.erase 0 :=
  c9_eof_context_destroyed_amended ⟨[], [], [], 0⟩ ⟨[0], [], [], 1⟩ true 0
    (fun _ => (0, none)) [⟨1, none⟩] (fun _ => ⟨1, none, [7]⟩) [⟨1, none⟩] 100
    rfl (fun _ => rfl)

/-- C1 counterexample: with `maxLength = 1` (non-negative) and a source
holding 2 immediately available bytes, the pool fallback sizes its buffer
to `maxSpliceSize`, reads 2 bytes in its single read, writes them all, and
returns `bytesMoved = 2 > 1 = maxLength`. -/
theorem c1_counterexample :
    spliceBufferPool (fun _ => ⟨2, none, [5, 6]⟩) [⟨2, none⟩] 1
      = some (2, none, [5, 6]) ∧
    ¬ (2 ≤ 1) := by
  refine ⟨by decide, by decide⟩

/-- C1 (amended): on the zero-copy path the Linux `Splice` never moves
more than `maxLength` bytes (leg 1 is bounded by the capped request it
actually issues and leg 2 drains at most that), but on the buffered
fallback the single read is bounded only by the buffer size
`max(maxSpliceSize, maxLength)`, which exceeds `maxLength` whenever
`maxLength < maxSpliceSize`.  The hypotheses are the kernel and
`io.Writer` contracts at the one request the call makes: leg 1 returns at
most the bytes it was asked for, the drain trace is valid for what leg 1
moved, the read returns at most the buffer size, and the fallback write
trace is valid for what the read returned. -/
theorem c1_amended
    (b : BucketSt) (createOk : Bool) (leg1 : Nat → Nat × Option IOError)
    (leg2 : List WriteStep) (read : Nat → ReadResult) (fws : List WriteStep)
    (len : Int) (hlen : 0 ≤ len)
    (hleg1 : (leg1 (if (maxSpliceSizeLinux : Int) < len
        then (maxSpliceSizeLinux : Int) else len).toNat).1
      ≤ (if (maxSpliceSizeLinux : Int) < len
        then (maxSpliceSizeLinux : Int) else len).toNat)
    (hleg2 : validSteps (leg1 (if (maxSpliceSizeLinux : Int) < len
        then (maxSpliceSizeLinux : Int) else len).toNat).1 leg2 = true)
    (hread : (read (if maxSpliceSize < len.toNat then len.toNat
        else maxSpliceSize)).retain
      ≤ (if maxSpliceSize < len.toNat then len.toNat else maxSpliceSize))
    (hfws : validSteps (read (if maxSpliceSize < len.toNat then len.toNat
        else maxSpliceSize)).retain fws = true) :
    (∀ n e b2, SpliceLinux true true b createOk leg1 leg2 read fws len
      = some (n, e, b2) → n ≤ len.toNat) ∧
    (∀ n e d, spliceBufferPool read fws len = some (n, e, d) →
      n ≤ max maxSpliceSize len.toNat) := by
  constructor
  · intro n e b2 hsp
    simp only [SpliceLinux] at hsp
    rcases hbg : bucketGet createOk b with ⟨oc, b1⟩
    rw [hbg] at hsp
    cases oc with
    | none =>
      simp only [Option.some.injEq, Prod.mk.injEq] at hsp
      obtain ⟨rfl, _, _⟩ := hsp
      exact Nat.zero_le _
    | some c =>
      rcases hl1 : leg1 (if (maxSpliceSizeLinux : Int) < len
          then (maxSpliceSizeLinux : Int) else len).toNat with ⟨retain, err1⟩
      rw [hl1] at hsp
      have hretle : retain ≤ len.toNat := by
        have h1 := hleg1
        rw [hl1] at h1
        by_cases hcap : (maxSpliceSizeLinux : Int) < len
        · rw [if_pos hcap] at h1
          omega
        · rw [if_neg hcap] at h1
          exact h1
      cases err1 with
      | some e1 =>
        simp only [Option.some.injEq, Prod.mk.injEq] at hsp
        obtain ⟨rfl, _, _⟩ := hsp
        exact Nat.zero_le _
      | none =>
        dsimp only at hsp
        by_cases hr0 : retain = 0
        · rw [if_pos hr0] at hsp
          simp only [Option.some.injEq, Prod.mk.injEq] at hsp
          obtain ⟨rfl, _, _⟩ := hsp
          exact Nat.zero_le _
        · rw [if_neg hr0] at hsp
          have hv2 := hleg2
          rw [hl1] at hv2
          rcases hd : spliceDrain 0 retain leg2 with _ | ⟨k, e2⟩
          · rw [hd] at hsp
            exact absurd hsp (by simp)
          · rw [hd] at hsp
            have hk := spliceDrain_le leg2 0 retain k e2 hv2 hd
            cases e2 with
            | none =>
              simp only [Option.some.injEq, Prod.mk.injEq] at hsp
              obtain ⟨rfl, _, _⟩ := hsp
              omega
            | some e2' =>
              simp only [Option.some.injEq, Prod.mk.injEq] at hsp
              obtain ⟨rfl, _, _⟩ := hsp
              omega
  · intro n e d hsp
    simp only [spliceBufferPool] at hsp
    rcases hre : (read (if maxSpliceSize < len.toNat then len.toNat
        else maxSpliceSize)).err with _ | e1
    · rw [hre] at hsp
      by_cases hr0 : (read (if maxSpliceSize < len.toNat then len.toNat
          else maxSpliceSize)).retain = 0
      · rw [if_pos hr0] at hsp
        simp only [Option.some.injEq, Prod.mk.injEq] at hsp
        obtain ⟨rfl, _, _⟩ := hsp
        exact Nat.zero_le _
      · rw [if_neg hr0] at hsp
        have hle := writeLoopPool_le _ fws 0 0
          (read (if maxSpliceSize < len.toNat then len.toNat
            else maxSpliceSize)).retain n e d hfws hsp
        have hrd := hread
        by_cases hbig : maxSpliceSize < len.toNat
        · rw [if_pos hbig] at hle hrd
          have : n ≤ len.toNat := by omega
          exact le_trans this (le_max_right _ _)
        · rw [if_neg hbig] at hle hrd
          have : n ≤ maxSpliceSize := by omega
          exact le_trans this (le_max_left _ _)
    · rw [hre] at hsp
      simp only [Option.some.injEq, Prod.mk.injEq] at hsp
      obtain ⟨rfl, _, _⟩ := hsp
      exact Nat.zero_le _

/-- C1 amended witness: a run that actually moves bytes.  With
`maxLength = 5`, leg 1 moves 2 bytes which leg 2 drains in one write, and
the fallback reads 2 bytes and writes them in one call; both conclusions
bound the 2 bytes moved. -/
theorem c1_amended_witness :
    (∀ n e b2, SpliceLinux true true ⟨[], [], [], 0⟩ true (fun _ => (2, none))
      [⟨2, none⟩] (fun _ => ⟨2, none, [5, 6]⟩) [⟨2, none⟩] 5
      = some (n, e, b2) → n ≤ (5 : Int).toNat) ∧
    (∀ n e d, spliceBufferPool (fun _ => ⟨2, none, [5, 6]⟩) [⟨2, none⟩] 5
      = some (n, e, d) → n ≤ max maxSpliceSize (5 : Int).toNat) :=
  c1_amended ⟨[], [], [], 0⟩ true (fun _ => (2, none)) [⟨2, none⟩]
    (fun _ => ⟨2, none, [5, 6]⟩) [⟨2, none⟩] 5
    (by decide) (by decide) (by decide) (by decide) (by decide)

/-- C10: whenever the fallback copy returns with a nil error (in either
variant), the reported count equals exactly the bytes obtained by the
single read, and the bytes delivered to the destination are exactly that
read prefix of the buffer, in order, nothing duplicated or skipped. -/
theorem c10_fallback_exact_delivery
    (r : ReadResult) (ws : List WriteStep) (len : Int) (k : Nat) (d : List Nat)
    (hv : validSteps r.retain ws = true)
    (hre : r.err = none) :
    (spliceBufferPool (fun _ => r) ws len = some (k, none, d) →
      k = r.retain ∧ d = r.data.take r.retain) ∧
    (spliceBufferCtx (fun _ => r) ws len = some (k, none, d) →
      k = r.retain ∧ d = r.data.take r.retain) := by
  constructor
  · intro hsp
    simp only [spliceBufferPool, hre] at hsp
    by_cases hr0 : r.retain = 0
    · rw [if_pos hr0] at hsp
      simp at hsp
    · rw [if_neg hr0] at hsp
      obtain ⟨hk, hd⟩ :=
        writeLoopPool_nil_exit (r.data.take r.retain) ws 0 0 r.retain k d hv hsp
      refine ⟨by omega, ?_⟩
      rw [hd, List.drop_zero, List.take_take, min_self]
  · intro hsp
    simp only [spliceBufferCtx, hre] at hsp
    obtain ⟨hk, hd⟩ :=
      writeLoopCtx_nil_exit (r.data.take r.retain) ws 0 0 r.retain k d hv hsp
    refine ⟨by omega, ?_⟩
    rw [hd, List.drop_zero, List.take_take, min_self]

/-- C10 witness: a 2-byte read delivered by a single 2-byte write. -/
theorem c10_fallback_exact_delivery_witness :
    (spliceBufferPool (fun _ => ⟨2, none, [5, 6]⟩) [⟨2, none⟩] 100
        = some (2, none, [5, 6]) →
      2 = (⟨2, none, [5, 6]⟩ : ReadResult).retain ∧
      [5, 6] = (⟨2, none, [5, 6]⟩ : ReadResult).data.take
        (⟨2, none, [5, 6]⟩ : ReadResult).retain) ∧
    (spliceBufferCtx (fun _ => ⟨2, none, [5, 6]⟩) [⟨2, none⟩] 100
        = some (2, none, [5, 6]) →
      2 = (⟨2, none, [5, 6]⟩ : ReadResult).retain ∧
      [5, 6] = (⟨2, none, [5, 6]⟩ : ReadResult).data.take
        (⟨2, none, [5, 6]⟩ : ReadResult).retain) :=
  c10_fallback_exact_delivery ⟨2, none, [5, 6]⟩ [⟨2, none⟩] 100 2 [5, 6]
    (by decide) rfl
